import Mathlib

set_option autoImplicit false

namespace R3

/- Shallow embedding of the R3 stretcher core (src/src/finer/R3Stretcher.cpp).
   C++ doubles are modelled as exact rationals, except in the hop calculator
   where the source uses pow/log10 and the model uses real numbers.  Spectral
   buffers are modelled as total functions from bin index to rational value;
   a loop writing each index once becomes a pointwise functional update. -/

/-- Modelled from the spec: binForFrequency (declared in R3Stretcher.h, which
    is not part of src/) maps a frequency to a bin index by
    round(f * fftSize / sampleRate). -/
def binForFrequency (f : ℚ) (fftSize : ℕ) (sampleRate : ℚ) : ℤ :=
  round (f * (fftSize : ℚ) / sampleRate)

/-- Guidance fields consumed by R3Stretcher::adjustPreKick: the presence flags
    of preKick and kick, the preKick frequency range f0/f1, and the list of
    fft band sizes (the source reads guidance.fftBands[0].fftSize). -/
structure PKGuidance where
  preKickPresent : Bool
  kickPresent : Bool
  preKickF0 : ℚ
  preKickF1 : ℚ
  fftBandSizes : List ℕ

/-- FFT size of the lowest active band, guidance.fftBands[0].fftSize. -/
def PKGuidance.bandFftSize (g : PKGuidance) : ℕ := g.fftBandSizes.headD 0

/-- Per-frame input to the transient deferrer for one channel: the guidance
    record of the frame together with the magnitude and previous-magnitude
    buffers of the scale it operates on (mag and prevMag are produced anew by
    analysis each frame; only pendingKick persists across frames). -/
structure PKFrame where
  g : PKGuidance
  mag : ℤ → ℚ
  prevMag : ℤ → ℚ

/-- Lower bin of the preKick range, binForFrequency(preKick.f0, fftBands[0].fftSize). -/
def pkFrom (sampleRate : ℚ) (g : PKGuidance) : ℤ :=
  binForFrequency g.preKickF0 g.bandFftSize sampleRate

/-- Upper bin of the preKick range, binForFrequency(preKick.f1, fftBands[0].fftSize). -/
def pkTo (sampleRate : ℚ) (g : PKGuidance) : ℤ :=
  binForFrequency g.preKickF1 g.bandFftSize sampleRate

/-- R3Stretcher::adjustPreKick for one channel and one frame, returning the
    new (mag, pendingKick) pair.  The preKick branch stores each positive rise
    mag[i] - prevMag[i] into pendingKick[i] and subtracts it from mag[i] over
    the preKick bin range; the kick branch adds pendingKick[i] back into
    mag[i] and zeroes pendingKick[i], over the bin range derived from
    preKick.f0/f1 (exactly as the source does, not kick.f0/f1). -/
def adjustPreKick (sampleRate : ℚ) (fr : PKFrame) (pending : ℤ → ℚ) :
    (ℤ → ℚ) × (ℤ → ℚ) :=
  if fr.g.preKickPresent then
    (fun i =>
       if pkFrom sampleRate fr.g ≤ i ∧ i ≤ pkTo sampleRate fr.g ∧
          fr.mag i - fr.prevMag i > 0 then
         fr.mag i - (fr.mag i - fr.prevMag i)
       else fr.mag i,
     fun i =>
       if pkFrom sampleRate fr.g ≤ i ∧ i ≤ pkTo sampleRate fr.g ∧
          fr.mag i - fr.prevMag i > 0 then
         fr.mag i - fr.prevMag i
       else pending i)
  else if fr.g.kickPresent then
    (fun i =>
       if pkFrom sampleRate fr.g ≤ i ∧ i ≤ pkTo sampleRate fr.g then
         fr.mag i + pending i
       else fr.mag i,
     fun i =>
       if pkFrom sampleRate fr.g ≤ i ∧ i ≤ pkTo sampleRate fr.g then 0
       else pending i)
  else (fr.mag, pending)

/-- Predicate: the frame performs a pre-kick subtraction at bin i (preKick is
    present, i lies in the preKick bin range, and the rise at i is positive). -/
def setsAt (sampleRate : ℚ) (fr : PKFrame) (i : ℤ) : Prop :=
  fr.g.preKickPresent = true ∧
  pkFrom sampleRate fr.g ≤ i ∧ i ≤ pkTo sampleRate fr.g ∧
  fr.mag i - fr.prevMag i > 0

/-- Predicate: the frame is a kick frame whose (preKick-derived) bin range
    covers bin i, so it re-adds and clears pendingKick[i]. -/
def clearsAt (sampleRate : ℚ) (fr : PKFrame) (i : ℤ) : Prop :=
  fr.g.preKickPresent = false ∧ fr.g.kickPresent = true ∧
  pkFrom sampleRate fr.g ≤ i ∧ i ≤ pkTo sampleRate fr.g

instance setsAtDecidable (sampleRate : ℚ) (fr : PKFrame) (i : ℤ) :
    Decidable (setsAt sampleRate fr i) :=
  inferInstanceAs (Decidable (fr.g.preKickPresent = true ∧
    pkFrom sampleRate fr.g ≤ i ∧ i ≤ pkTo sampleRate fr.g ∧
    fr.mag i - fr.prevMag i > 0))

instance clearsAtDecidable (sampleRate : ℚ) (fr : PKFrame) (i : ℤ) :
    Decidable (clearsAt sampleRate fr i) :=
  inferInstanceAs (Decidable (fr.g.preKickPresent = false ∧
    fr.g.kickPresent = true ∧
    pkFrom sampleRate fr.g ≤ i ∧ i ≤ pkTo sampleRate fr.g))

/-- Effect of one frame on the pendingKick buffer. -/
def pendingStep (sampleRate : ℚ) (p : ℤ → ℚ) (fr : PKFrame) : ℤ → ℚ :=
  (adjustPreKick sampleRate fr p).2

/-- PendingKick buffer after a run of frames, starting from buffer p. -/
def pendingRun (sampleRate : ℚ) (frames : List PKFrame) (p : ℤ → ℚ) : ℤ → ℚ :=
  frames.foldl (pendingStep sampleRate) p

/-- Sum over the frames of a run of the per-frame change of pendingKick[i]. -/
def pendingDeltaSum (sampleRate : ℚ) (frames : List PKFrame) (p : ℤ → ℚ) (i : ℤ) : ℚ :=
  match frames with
  | [] => 0
  | fr :: rest =>
    (pendingStep sampleRate p fr i - p i) +
      pendingDeltaSum sampleRate rest (pendingStep sampleRate p fr) i

/-- All-zero pendingKick buffer (the state at engine reset). -/
def zeroPending : ℤ → ℚ := fun _ => 0

/-- Per-band bin limits from the guide configuration: fftSize, b0min, b1max. -/
structure FormantBand where
  fftSize : ℕ
  b0min : ℤ
  b1max : ℤ

/-- R3Stretcher::adjustFormant restricted to one scale of one channel,
    parametric in the envelope lookup env (FormantData::envelopeAt lives in
    R3Stretcher.h, outside src/).  formantFftSize is cd->formant->fftSize.
    The source iterates over the configured band limits; for each band of this
    scale it walks bins i from b0min while i < b1max and i < highBin with
    highBin = floor(fftSize * 10000 / sampleRate), multiplying mag[i] by the
    clamped envelope ratio whenever the target envelope value is positive. -/
def adjustFormant (env : ℚ → ℚ) (sampleRate : ℚ) (formantFftSize : ℕ)
    (formantScale pitchScale : ℚ) (bands : List FormantBand) (fftSize : ℕ)
    (mag : ℤ → ℚ) : ℤ → ℚ :=
  let highBin : ℤ := ⌊(fftSize : ℚ) * 10000 / sampleRate⌋
  let targetFactor : ℚ := (formantFftSize : ℚ) / (fftSize : ℚ)
  let fscale : ℚ := if formantScale = 0 then 1 / pitchScale else formantScale
  let sourceFactor : ℚ := targetFactor / fscale
  bands.foldl
    (fun m b =>
      if b.fftSize = fftSize then
        fun i =>
          if b.b0min ≤ i ∧ i < b.b1max ∧ i < highBin then
            let source := env ((i : ℚ) * sourceFactor)
            let target := env ((i : ℚ) * targetFactor)
            if target > 0 then
              let r0 := source / target
              let r1 := if r0 < 1 / 60 then 1 / 60 else r0
              let r2 := if r1 > 60 then 60 else r1
              m i * r2
            else m i
          else m i
      else m) mag

/-- Written from the claim text of C3 (not from the source): identical to
    adjustFormant except that the bin range is the inclusive
    [b0min, min(b1max, floor(fftSize * 10000 / sampleRate))]. -/
def adjustFormantClaimed (env : ℚ → ℚ) (sampleRate : ℚ) (formantFftSize : ℕ)
    (formantScale pitchScale : ℚ) (bands : List FormantBand) (fftSize : ℕ)
    (mag : ℤ → ℚ) : ℤ → ℚ :=
  let highBin : ℤ := ⌊(fftSize : ℚ) * 10000 / sampleRate⌋
  let targetFactor : ℚ := (formantFftSize : ℚ) / (fftSize : ℚ)
  let fscale : ℚ := if formantScale = 0 then 1 / pitchScale else formantScale
  let sourceFactor : ℚ := targetFactor / fscale
  bands.foldl
    (fun m b =>
      if b.fftSize = fftSize then
        fun i =>
          if b.b0min ≤ i ∧ i ≤ b.b1max ∧ i ≤ highBin then
            let source := env ((i : ℚ) * sourceFactor)
            let target := env ((i : ℚ) * targetFactor)
            if target > 0 then
              let r0 := source / target
              let r1 := if r0 < 1 / 60 then 1 / 60 else r0
              let r2 := if r1 > 60 then 60 else r1
              m i * r2
            else m i
          else m i
      else m) mag

/-- Effective formant scale: formantScale when nonzero, else 1 / pitchScale. -/
def formantScaleEff (formantScale pitchScale : ℚ) : ℚ :=
  if formantScale = 0 then 1 / pitchScale else formantScale

/-- Clamp of the envelope ratio to the interval from 1/60 to 60. -/
def clampFormantRatio (r : ℚ) : ℚ := max (1 / 60) (min 60 r)

/-- Concrete envelope used by the C3 counterexample. -/
def envWitness : ℚ → ℚ := fun x => x + 1

/-- Concrete all-ones magnitude buffer used by the C3 counterexample. -/
def magOne : ℤ → ℚ := fun _ => 1

/-- State touched by the Emit section of R3Stretcher::consume in offline mode:
    the duration counters, the start skip, and the read space of the
    (per-channel, all equal) output rings.  Counters are Nat, matching the
    non-negative values these variables take; the size_t subtraction in the
    truncation branch agrees with Nat subtraction whenever totalOutputDuration
    has not passed totalTargetDuration. -/
structure EmitState where
  totalOutputDuration : ℕ
  totalTargetDuration : ℕ
  startSkip : ℕ
  outReadSpace : ℕ

/-- Truncated write count of one Emit step: when the target duration is set
    and writing writeCount samples would take the output past it, the count is
    reduced to exactly totalTargetDuration - totalOutputDuration. -/
def truncWriteCount (s : EmitState) (writeCount : ℕ) : ℕ :=
  if 0 < s.totalTargetDuration ∧
      s.totalTargetDuration < s.totalOutputDuration + writeCount then
    s.totalTargetDuration - s.totalOutputDuration
  else writeCount

/-- One Emit step of R3Stretcher::consume in offline mode: truncate the write
    count, write it to the output rings and add it to totalOutputDuration;
    then, if startSkip is positive, skip min(startSkip, readSpace) samples
    from the head of every output ring, reduce startSkip by the same amount,
    and reassign totalOutputDuration := readSpace - toSkip (the source
    reassigns rather than increments at this point). -/
def emitFrame (s : EmitState) (writeCount : ℕ) : EmitState :=
  let wc := truncWriteCount s writeCount
  let rs := s.outReadSpace + wc
  let total := s.totalOutputDuration + wc
  if 0 < s.startSkip then
    let toSkip := min s.startSkip rs
    { totalOutputDuration := rs - toSkip
      totalTargetDuration := s.totalTargetDuration
      startSkip := s.startSkip - toSkip
      outReadSpace := rs - toSkip }
  else
    { totalOutputDuration := total
      totalTargetDuration := s.totalTargetDuration
      startSkip := s.startSkip
      outReadSpace := rs }

/-- An externally observable event affecting the Emit state: one processed
    frame (with its writeCount before truncation), or a retrieve taking up to
    n samples out of the output rings. -/
inductive EmitEvent where
  | frame (writeCount : ℕ)
  | retrieve (n : ℕ)

/-- Effect of one event on the Emit state. -/
def emitEventStep (s : EmitState) (e : EmitEvent) : EmitState :=
  match e with
  | .frame wc => emitFrame s wc
  | .retrieve n => { s with outReadSpace := s.outReadSpace - n }

/-- Emit state after a sequence of events. -/
def emitRun (events : List EmitEvent) (s : EmitState) : EmitState :=
  events.foldl emitEventStep s

/-- Initial Emit state at the start of offline processing: nothing emitted,
    empty output rings, the given target duration and start skip. -/
def emitInit (target skip : ℕ) : EmitState :=
  { totalOutputDuration := 0, totalTargetDuration := target,
    startSkip := skip, outReadSpace := 0 }

/-- Inductive invariant of the Emit loop: the ring read space never exceeds
    totalOutputDuration, which never exceeds totalTargetDuration. -/
def EmitInv (s : EmitState) : Prop :=
  s.outReadSpace ≤ s.totalOutputDuration ∧
  s.totalOutputDuration ≤ s.totalTargetDuration

/-- Processing modes of the stretcher state machine. -/
inductive Mode where
  | justCreated
  | studying
  | processing
  | finished
deriving DecidableEq

/-- Slice of the R3Stretcher state used by process, available and the
    key-frame ratio update.  The per-channel input rings always hold the same
    samples, so one list models all of them; outReadSpace models the (equal)
    read space of the output rings.  keyFrameMap models the std::map as an
    ascending association list.  divByZero is model instrumentation: it
    records that a double division with zero denominator occurred, whose IEEE
    result (infinity or NaN) is not representable in the rational model. -/
structure ProcState where
  mode : Mode
  timeRatio : ℚ
  pitchScale : ℚ
  inhop : ℕ
  longest : ℕ
  studyInputDuration : ℕ
  suppliedInputDuration : ℕ
  totalTargetDuration : ℕ
  consumedInputDuration : ℕ
  lastKeyFrameSurpassed : ℕ
  keyFrameMap : List (ℕ × ℕ)
  inbuf : List ℚ
  outReadSpace : ℕ
  startSkip : ℕ
  hasResampler : Bool
  divByZero : Bool

/-- First entry of the ascending map with key strictly greater than x
    (std::map::upper_bound). -/
def upperBound (m : List (ℕ × ℕ)) (x : ℕ) : Option (ℕ × ℕ) :=
  m.find? (fun p => decide (x < p.1))

/-- R3Stretcher::updateRatioFromMap.  hopFn stands for calculateHop (modelled
    separately over the reals, see calculateHop below); it maps the new time
    ratio and the pitch scale to the new integer input hop.  In the
    no-input-consumed branch the source divides the first entry's output index
    by its input index as doubles; when that input index is zero the model
    sets divByZero (the C++ quotient is then an IEEE infinity or NaN). -/
def updateRatioFromMap (hopFn : ℚ → ℚ → ℕ) (s : ProcState) : ProcState :=
  if s.keyFrameMap = [] then s
  else if s.consumedInputDuration = 0 then
    match s.keyFrameMap with
    | [] => s
    | (k, v) :: _ =>
      let r := (v : ℚ) / (k : ℚ)
      { s with timeRatio := r
               inhop := hopFn r s.pitchScale
               lastKeyFrameSurpassed := 0
               divByZero := s.divByZero || decide (k = 0) }
  else
    match upperBound s.keyFrameMap s.lastKeyFrameSurpassed with
    | none => s
    | some (k0, v0) =>
      if k0 ≤ s.consumedInputDuration then
        let next := upperBound s.keyFrameMap s.consumedInputDuration
        let keyFrameAtInput :=
          match next with
          | some (k1, _) => k1
          | none => s.studyInputDuration
        let keyFrameAtOutput :=
          match next with
          | some (_, v1) => v1
          | none => s.totalTargetDuration
        let r : ℚ :=
          if k0 < keyFrameAtInput then
            if v0 < keyFrameAtOutput then
              ((keyFrameAtOutput - v0 : ℕ) : ℚ) / ((keyFrameAtInput - k0 : ℕ) : ℚ)
            else
              1 / ((keyFrameAtInput - k0 : ℕ) : ℚ)
          else 1
        { s with timeRatio := r
                 inhop := hopFn r s.pitchScale
                 lastKeyFrameSurpassed := k0 }
      else s

/-- Offline target-duration bookkeeping at the top of R3Stretcher::process:
    after a study pass the target is round(studyInputDuration * timeRatio);
    in JustCreated mode with a supplied expected duration it is
    round(suppliedInputDuration * timeRatio). -/
def processTargetUpdate (s : ProcState) : ProcState :=
  if s.mode = Mode.studying then
    { s with totalTargetDuration :=
        (round ((s.studyInputDuration : ℚ) * s.timeRatio)).toNat }
  else if s.mode = Mode.justCreated ∧ s.suppliedInputDuration ≠ 0 then
    { s with totalTargetDuration :=
        (round ((s.suppliedInputDuration : ℚ) * s.timeRatio)).toNat }
  else s

/-- Key-frame ratio update inside process: invoked only on a non-empty map. -/
def processMapUpdate (hopFn : ℚ → ℚ → ℕ) (s : ProcState) : ProcState :=
  if s.keyFrameMap = [] then s else updateRatioFromMap hopFn s

/-- Offline startup padding inside process: while the mode is still
    JustCreated or Studying, create the resampler if the pitch scale needs
    one, prefill each input ring with longest/2 zeros, and set
    startSkip = round((longest/2) / pitchScale). -/
def processPrefill (s : ProcState) : ProcState :=
  if s.mode = Mode.justCreated ∨ s.mode = Mode.studying then
    let sc := if s.pitchScale ≠ 1 ∧ s.hasResampler = false then
        { s with hasResampler := true } else s
    let pad := sc.longest / 2
    { sc with
        inbuf := sc.inbuf ++ List.replicate pad 0
        startSkip := (round ((pad : ℚ) / sc.pitchScale)).toNat }
  else s

/-- Everything R3Stretcher::process does before calling consume, in source
    order, for a non-Finished state: offline bookkeeping (target duration,
    key-frame ratio update, startup padding), the mode transition driven by
    the final flag, and the append of the incoming samples to the input
    rings.  realTime is the constant realtime option of the instance. -/
def processPrepared (hopFn : ℚ → ℚ → ℕ) (realTime : Bool) (input : List ℚ)
    (final : Bool) (s : ProcState) : ProcState :=
  let s1 :=
    if realTime then s
    else processPrefill (processMapUpdate hopFn (processTargetUpdate s))
  let s2 := { s1 with mode := if final then Mode.finished else Mode.processing }
  { s2 with inbuf := s2.inbuf ++ input }

/-- R3Stretcher::process: when the mode is already Finished it returns
    immediately with a logged warning, writing nothing; otherwise it runs the
    preparation steps and then consume (passed as a function, since consume
    touches state beyond this model).  The Bool result records whether the
    warning was logged. -/
def process (hopFn : ℚ → ℚ → ℕ) (consumeFn : ProcState → ProcState)
    (realTime : Bool) (input : List ℚ) (final : Bool) (s : ProcState) :
    ProcState × Bool :=
  if s.mode = Mode.finished then (s, true)
  else (consumeFn (processPrepared hopFn realTime input final s), false)

/-- R3Stretcher::available: the read space of output ring 0, except that a
    drained ring in Finished mode reports -1. -/
def available (s : ProcState) : ℤ :=
  let av : ℤ := (s.outReadSpace : ℤ)
  if av = 0 ∧ s.mode = Mode.finished then -1 else av

/-- Constant hop function used by witnesses and counterexamples. -/
def hopFnOne : ℚ → ℚ → ℕ := fun _ _ => 1

/-- Baseline freshly-created state used by witnesses and counterexamples. -/
def baseState : ProcState :=
  { mode := Mode.justCreated, timeRatio := 1, pitchScale := 1, inhop := 1,
    longest := 4, studyInputDuration := 0, suppliedInputDuration := 0,
    totalTargetDuration := 0, consumedInputDuration := 0,
    lastKeyFrameSurpassed := 0, keyFrameMap := [], inbuf := [],
    outReadSpace := 0, startSkip := 0, hasResampler := false,
    divByZero := false }

/-- Range update over bin indices: dst overwritten by src on [lo, lo+count). -/
def updateRange (dst src : ℤ → ℚ) (lo count : ℤ) : ℤ → ℚ :=
  fun i => if lo ≤ i ∧ i < lo + count then src i else dst i

/-- In-place scaling of a buffer by a factor over [lo, lo+count) (v_scale). -/
def vscaleRange (x : ℤ → ℚ) (lo count : ℤ) (factor : ℚ) : ℤ → ℚ :=
  fun i => if lo ≤ i ∧ i < lo + count then x i * factor else x i

/-- Bin ranges of a cartesian-to-polar conversion (ToPolarSpec): magnitudes
    over [magFromBin, magFromBin + magBinCount), phases over
    [polarFromBin, polarFromBin + polarBinCount). -/
structure ToPolarSpec where
  magFromBin : ℤ
  magBinCount : ℤ
  polarFromBin : ℤ
  polarBinCount : ℤ

/-- External collaborators used by analyseChannel at the classification scale
    (all live outside src/: Window::cut, v_fftshift, FFT::forward, and the
    cartesian-to-polar kernels of VectorOpsComplex), kept abstract.
    acut off buf is the analysis window applied to the sub-frame of buf
    starting at offset off. -/
structure AnalysisOps where
  acut : ℤ → (ℤ → ℚ) → (ℤ → ℚ)
  fftshift : (ℤ → ℚ) → (ℤ → ℚ)
  fftReal : (ℤ → ℚ) → (ℤ → ℚ)
  fftImag : (ℤ → ℚ) → (ℤ → ℚ)
  polarMag : (ℤ → ℚ) → (ℤ → ℚ) → (ℤ → ℚ)
  polarPhase : (ℤ → ℚ) → (ℤ → ℚ) → (ℤ → ℚ)

/-- convertToPolar: writes the magnitudes and phases of (re, im) into the
    given buffers over the ranges of the spec, returning (mag, phase). -/
def convertToPolar (ops : AnalysisOps) (mag phase re im : ℤ → ℚ)
    (sp : ToPolarSpec) : (ℤ → ℚ) × (ℤ → ℚ) :=
  (updateRange mag (ops.polarMag re im) sp.magFromBin sp.magBinCount,
   updateRange phase (ops.polarPhase re im) sp.polarFromBin sp.polarBinCount)

/-- Classification-scale state carried across frames by one channel:
    classifyScale.mag/phase, the readahead record's mag/phase, and the
    haveReadahead flag. -/
structure ClassifyState where
  classifyMag : ℤ → ℚ
  classifyPhase : ℤ → ℚ
  readaheadMag : ℤ → ℚ
  readaheadPhase : ℤ → ℚ
  haveReadahead : Bool

/-- Classification-scale part of R3Stretcher::analyseChannel, in source
    order: the readahead is windowed from the shifted centre
    (longest-classify)/2 + inhop of the long frame buf; the previous
    readahead is valid iff haveReadahead and inhop = prevInhop, in which case
    its mag/phase are copied into classifyScale.mag/phase (and the copy is
    then normalised by 1/classify, as the source's unconditional v_scale
    does) and only the new readahead is transformed; otherwise the current
    classification frame is also windowed (from the unshifted centre),
    transformed and converted, so two classification-scale forward FFTs run.
    Returns the new state and the number of forward FFTs performed at the
    classification scale this frame. -/
def analyseClassify (ops : AnalysisOps) (classify longest : ℤ)
    (b0min b1max : ℤ) (inhop prevInhop : ℤ) (buf : ℤ → ℚ)
    (st : ClassifyState) : ClassifyState × ℕ :=
  let bufSize := classify / 2 + 1
  let haveValid := st.haveReadahead && decide (inhop = prevInhop)
  let cMag0 := if haveValid then updateRange st.classifyMag st.readaheadMag 0 bufSize
               else st.classifyMag
  let cPhase0 := if haveValid then
                   updateRange st.classifyPhase st.readaheadPhase 0 bufSize
                 else st.classifyPhase
  let raTD := ops.fftshift (ops.acut ((longest - classify) / 2 + inhop) buf)
  let raRe := ops.fftReal raTD
  let raIm := ops.fftImag raTD
  let sp : ToPolarSpec := ⟨0, classify / 2 + 1, b0min, b1max - b0min + 1⟩
  let ra := convertToPolar ops st.readaheadMag st.readaheadPhase raRe raIm sp
  let cMag1 := vscaleRange cMag0 0 bufSize (1 / (classify : ℚ))
  if haveValid then
    (⟨cMag1, cPhase0, ra.1, ra.2, true⟩, 1)
  else
    let cTD := ops.fftshift (ops.acut ((longest - classify) / 2) buf)
    let cRe := ops.fftReal cTD
    let cIm := ops.fftImag cTD
    let c2 := convertToPolar ops cMag1 cPhase0 cRe cIm sp
    let cMag2 := vscaleRange c2.1 0 (classify / 2 + 1) (1 / (classify : ℚ))
    (⟨cMag2, c2.2, ra.1, ra.2, true⟩, 2)

/-- Concrete analysis collaborators used by the C9 witness. -/
def opsZero : AnalysisOps :=
  ⟨fun _ b => b, id, id, id, fun re _ => re, fun _ im => im⟩

/-- Concrete classification state used by the C9 witness. -/
def stZero : ClassifyState :=
  ⟨fun _ => 0, fun _ => 0, fun _ => 3, fun _ => 4, true⟩

/-- Modelled from the spec: RingBuffer::read reads and returns
    min(requested, readSpace) samples (collaborator contract of the spec). -/
def ringRead (readSpace requested : ℕ) : ℕ := min requested readSpace

/-- Loop of R3Stretcher::retrieve over the channels: avails lists each
    channel's output-ring read space, c is the channel index, got the running
    count, warns accumulates the channels whose shortfall triggered the
    channel-imbalance warning (only channels with index above 0 warn). -/
def retrieveGo (c : ℕ) (avails : List ℕ) (got : ℕ) (warns : List ℕ) :
    ℕ × List ℕ :=
  match avails with
  | [] => (got, warns)
  | a :: rest =>
    let gotHere := ringRead a got
    let warns2 := if gotHere < got ∧ 0 < c then warns ++ [c] else warns
    let got2 := if gotHere < got then min got (max gotHere 0) else got
    retrieveGo (c + 1) rest got2 warns2

/-- R3Stretcher::retrieve: the returned sample count and warned channels. -/
def retrieve (avails : List ℕ) (samples : ℕ) : ℕ × List ℕ :=
  retrieveGo 0 avails samples []

/-- Samples actually read from each channel's output ring during retrieve
    (each channel is asked for the running count, which its read space may
    further reduce). -/
def readCounts (avails : List ℕ) (got : ℕ) : List ℕ :=
  match avails with
  | [] => []
  | a :: rest => min got a :: readCounts rest (min got a)

/-- Modelled from the spec: getEffectiveRatio (declared in R3Stretcher.h,
    outside src/) is timeRatio * pitchScale; time stretching followed by
    resampling by 1/pitchScale matches the requested duration and pitch. -/
noncomputable def getEffectiveRatio (timeRatio pitchScale : ℝ) : ℝ :=
  timeRatio * pitchScale

/-- Hop computation of R3Stretcher::calculateHop, translated from the source
    over the reals (pow(2, x) and log10 are Real rpow and logb): proposed
    outhop 256, replaced for ratios above 1.5 or below 1.0, clamped by the
    two source conditionals; ideal inhop proposed/ratio clamped to [1, 1024];
    the stored inhop is its floor. -/
noncomputable def hopFromRatio (ratio : ℝ) : ℤ :=
  let proposed0 : ℝ := 256
  let proposed1 : ℝ :=
    if ratio > 1.5 then (2 : ℝ) ^ (8 + 2 * Real.logb 10 (ratio - 0.5))
    else if ratio < 1 then (2 : ℝ) ^ (8 + 2 * Real.logb 10 ratio)
    else proposed0
  let proposed2 := if proposed1 > 512 then (512 : ℝ) else proposed1
  let proposed3 := if proposed2 < 128 then (128 : ℝ) else proposed2
  let inhop0 := proposed3 / ratio
  let inhop1 := if inhop0 < 1 then (1 : ℝ) else inhop0
  let inhop2 := if inhop1 > 1024 then (1024 : ℝ) else inhop1
  ⌊inhop2⌋

/-- R3Stretcher::calculateHop: the stored input hop for the given time ratio
    and pitch scale, computed from the effective ratio. -/
noncomputable def calculateHop (timeRatio pitchScale : ℝ) : ℤ :=
  hopFromRatio (getEffectiveRatio timeRatio pitchScale)

/-- Clamp of x to the closed interval [lo, hi], as the claim words it. -/
noncomputable def clampR (lo hi x : ℝ) : ℝ := max lo (min hi x)

/-- Written from the claim text of C1: proposed outhop 256 for r in [1, 1.5],
    2^(8 + 2 log10(r - 0.5)) for r above 1.5, 2^(8 + 2 log10 r) for r below
    1, clamped to [128, 512]; ideal input hop H_out / r clamped to [1, 1024];
    the stored hop is its floor. -/
noncomputable def hopFromRatioClaimed (r : ℝ) : ℤ :=
  let hOut : ℝ :=
    if 1 ≤ r ∧ r ≤ 1.5 then 256
    else if r > 1.5 then (2 : ℝ) ^ (8 + 2 * Real.logb 10 (r - 0.5))
    else (2 : ℝ) ^ (8 + 2 * Real.logb 10 r)
  let hOut2 := clampR 128 512 hOut
  let hIn := clampR 1 1024 (hOut2 / r)
  ⌊hIn⌋

/-- Written from the claim text of C1: the claim derives the hop from the
    quotient timeRatio / pitchScale. -/
noncomputable def calculateHopClaimed (timeRatio pitchScale : ℝ) : ℤ :=
  hopFromRatioClaimed (timeRatio / pitchScale)

/- THEOREMS -/

theorem clampHi_ifs (x : ℝ) :
    (if (if x > 512 then (512 : ℝ) else x) < 128 then (128 : ℝ)
     else if x > 512 then (512 : ℝ) else x) = max 128 (min 512 x) := by
  rcases lt_or_le (512 : ℝ) x with h1 | h1
  · rw [if_pos h1, if_neg (by norm_num), min_eq_left (le_of_lt h1),
      max_eq_right (by norm_num)]
  · rw [if_neg (not_lt.mpr h1), min_eq_right h1]
    rcases lt_or_le x (128 : ℝ) with h2 | h2
    · rw [if_pos h2, max_eq_left (le_of_lt h2)]
    · rw [if_neg (not_lt.mpr h2), max_eq_right h2]

theorem clampLo_ifs (y : ℝ) :
    (if (if y < 1 then (1 : ℝ) else y) > 1024 then (1024 : ℝ)
     else if y < 1 then (1 : ℝ) else y) = max 1 (min 1024 y) := by
  rcases lt_or_le y (1 : ℝ) with h1 | h1
  · rw [if_pos h1, if_neg (by norm_num), min_eq_right (by linarith),
      max_eq_left (by linarith)]
  · rw [if_neg (not_lt.mpr h1), max_eq_right]
    · rcases lt_or_le (1024 : ℝ) y with h2 | h2
      · rw [if_pos h2, min_eq_left (le_of_lt h2)]
      · rw [if_neg (not_lt.mpr h2), min_eq_right h2]
    · rcases lt_or_le (1024 : ℝ) y with h2 | h2
      · rw [min_eq_left (le_of_lt h2)]; norm_num
      · rw [min_eq_right h2]; exact h1

theorem hopFromRatio_eq_claimed (r : ℝ) (hr : 0 < r) :
    hopFromRatio r = hopFromRatioClaimed r := by
  have hbranch : (if r > 1.5 then (2 : ℝ) ^ (8 + 2 * Real.logb 10 (r - 0.5))
      else if r < 1 then (2 : ℝ) ^ (8 + 2 * Real.logb 10 r) else (256 : ℝ)) =
      (if 1 ≤ r ∧ r ≤ 1.5 then (256 : ℝ)
       else if r > 1.5 then (2 : ℝ) ^ (8 + 2 * Real.logb 10 (r - 0.5))
       else (2 : ℝ) ^ (8 + 2 * Real.logb 10 r)) := by
    rcases lt_trichotomy r 1 with hlt | heq | hgt
    · rw [if_neg (by simp only [gt_iff_lt]; linarith), if_pos hlt,
        if_neg (by rintro ⟨h, _⟩; linarith),
        if_neg (by simp only [gt_iff_lt]; linarith)]
    · subst heq
      rw [if_neg (by norm_num), if_neg (by norm_num),
        if_pos ⟨le_refl 1, by norm_num⟩]
    · rcases le_or_lt r 1.5 with hle | hgt2
      · rw [if_neg (not_lt.mpr hle), if_neg (by linarith),
          if_pos ⟨by linarith, hle⟩]
      · rw [if_pos hgt2, if_neg (by rintro ⟨_, h⟩; linarith), if_pos hgt2]
  simp only [hopFromRatio, hopFromRatioClaimed, clampR]
  rw [hbranch, clampHi_ifs, clampLo_ifs]

/-- C1 amended: for every positive timeRatio and pitchScale, calculateHop
    derives the stored input hop from the effective ratio
    r = timeRatio * pitchScale (the product, not the quotient the claim
    states): H_out = 256 for 1 ≤ r ≤ 1.5, 2^(8 + 2 log10(r - 0.5)) for
    r > 1.5, 2^(8 + 2 log10 r) for r < 1, clamped to [128, 512]; the ideal
    input hop is H_out / r clamped to [1, 1024], and the stored input hop is
    its floor. -/
theorem calculateHop_spec (timeRatio pitchScale : ℝ)
    (h1 : 0 < timeRatio) (h2 : 0 < pitchScale) :
    calculateHop timeRatio pitchScale =
      hopFromRatioClaimed (timeRatio * pitchScale) := by
  unfold calculateHop getEffectiveRatio
  exact hopFromRatio_eq_claimed _ (mul_pos h1 h2)

/-- C1 witness: at timeRatio 2 and pitchScale 1 the source hop equals the
    claimed-formula hop taken at the product ratio 2 * 1. -/
theorem calculateHop_spec_witness :
    (0 : ℝ) < 2 ∧ (0 : ℝ) < 1 ∧
    calculateHop 2 1 = hopFromRatioClaimed (2 * 1) :=
  ⟨by norm_num, by norm_num, calculateHop_spec 2 1 (by norm_num) (by norm_num)⟩

/-- C1 counterexample: at timeRatio = 2, pitchScale = 2 the claimed effective
    ratio 2/2 = 1 yields hop 256, while the source effective ratio 2*2 = 4
    yields hop 128 (the proposed outhop 2^(8 + 2 log10 3.5) exceeds 512, is
    clamped to 512, and divided by 4), so the claimed quotient formula
    contradicts the code. -/
theorem calculateHop_counterexample :
    calculateHopClaimed 2 2 = 256 ∧ calculateHop 2 2 = 128 ∧
    calculateHop 2 2 ≠ calculateHopClaimed 2 2 := by
  have ha : calculateHopClaimed 2 2 = 256 := by
    simp only [calculateHopClaimed, hopFromRatioClaimed, clampR]
    rw [show (2 : ℝ) / 2 = 1 by norm_num]
    rw [if_pos ⟨le_refl (1 : ℝ), by norm_num⟩]
    rw [min_eq_right (by norm_num : (256 : ℝ) ≤ 512),
      max_eq_right (by norm_num : (128 : ℝ) ≤ 256)]
    rw [show (256 : ℝ) / 1 = 256 by norm_num]
    rw [min_eq_right (by norm_num : (256 : ℝ) ≤ 1024),
      max_eq_right (by norm_num : (1 : ℝ) ≤ 256)]
    rw [show (256 : ℝ) = ((256 : ℤ) : ℝ) by norm_num, Int.floor_intCast]
  have hlog : (1 : ℝ) / 2 < Real.logb 10 3.5 := by
    rw [Real.lt_logb_iff_rpow_lt (by norm_num) (by norm_num)]
    rw [← Real.sqrt_eq_rpow]
    rw [Real.sqrt_lt' (by norm_num)]
    norm_num
  have hA : (512 : ℝ) < (2 : ℝ) ^ (8 + 2 * Real.logb 10 3.5) := by
    have h512 : (512 : ℝ) = (2 : ℝ) ^ ((9 : ℕ) : ℝ) := by
      rw [Real.rpow_natCast]; norm_num
    rw [h512]
    rw [Real.rpow_lt_rpow_left_iff (by norm_num : (1 : ℝ) < 2)]
    push_cast
    linarith
  have hb : calculateHop 2 2 = 128 := by
    simp only [calculateHop, getEffectiveRatio, hopFromRatio]
    rw [show (2 : ℝ) * 2 = 4 by norm_num]
    rw [if_pos (by norm_num : (4 : ℝ) > 1.5)]
    rw [show (4 : ℝ) - 0.5 = 3.5 by norm_num]
    rw [if_pos (by exact hA : (2 : ℝ) ^ (8 + 2 * Real.logb 10 3.5) > 512)]
    rw [if_neg (by norm_num : ¬ (512 : ℝ) < 128)]
    rw [show (512 : ℝ) / 4 = 128 by norm_num]
    rw [if_neg (by norm_num : ¬ (128 : ℝ) < 1),
      if_neg (by norm_num : ¬ (128 : ℝ) > 1024)]
    rw [show (128 : ℝ) = ((128 : ℤ) : ℝ) by norm_num, Int.floor_intCast]
  refine ⟨ha, hb, ?_⟩
  rw [ha, hb]
  decide

theorem updateRatioFromMap_preserves (hopFn : ℚ → ℚ → ℕ) (s : ProcState) :
    (updateRatioFromMap hopFn s).mode = s.mode ∧
    (updateRatioFromMap hopFn s).inbuf = s.inbuf ∧
    (updateRatioFromMap hopFn s).startSkip = s.startSkip ∧
    (updateRatioFromMap hopFn s).pitchScale = s.pitchScale ∧
    (updateRatioFromMap hopFn s).longest = s.longest ∧
    (updateRatioFromMap hopFn s).hasResampler = s.hasResampler := by
  unfold updateRatioFromMap
  by_cases h1 : s.keyFrameMap = []
  · rw [if_pos h1]; exact ⟨rfl, rfl, rfl, rfl, rfl, rfl⟩
  · rw [if_neg h1]
    by_cases h2 : s.consumedInputDuration = 0
    · rw [if_pos h2]
      cases hm : s.keyFrameMap with
      | nil => exact ⟨rfl, rfl, rfl, rfl, rfl, rfl⟩
      | cons kv rest =>
        cases kv with
        | mk k v => exact ⟨rfl, rfl, rfl, rfl, rfl, rfl⟩
    · rw [if_neg h2]
      cases hub : upperBound s.keyFrameMap s.lastKeyFrameSurpassed with
      | none => exact ⟨rfl, rfl, rfl, rfl, rfl, rfl⟩
      | some kv =>
        cases kv with
        | mk k0 v0 =>
          by_cases h3 : k0 ≤ s.consumedInputDuration <;> simp [h3]

theorem processTargetUpdate_preserves (s : ProcState) :
    (processTargetUpdate s).mode = s.mode ∧
    (processTargetUpdate s).inbuf = s.inbuf ∧
    (processTargetUpdate s).startSkip = s.startSkip ∧
    (processTargetUpdate s).pitchScale = s.pitchScale ∧
    (processTargetUpdate s).longest = s.longest ∧
    (processTargetUpdate s).keyFrameMap = s.keyFrameMap ∧
    (processTargetUpdate s).consumedInputDuration = s.consumedInputDuration := by
  unfold processTargetUpdate
  by_cases h1 : s.mode = Mode.studying
  · rw [if_pos h1]; exact ⟨rfl, rfl, rfl, rfl, rfl, rfl, rfl⟩
  · rw [if_neg h1]
    by_cases h2 : s.mode = Mode.justCreated ∧ s.suppliedInputDuration ≠ 0
    · rw [if_pos h2]; exact ⟨rfl, rfl, rfl, rfl, rfl, rfl, rfl⟩
    · rw [if_neg h2]; exact ⟨rfl, rfl, rfl, rfl, rfl, rfl, rfl⟩

theorem processMapUpdate_preserves (hopFn : ℚ → ℚ → ℕ) (s : ProcState) :
    (processMapUpdate hopFn s).mode = s.mode ∧
    (processMapUpdate hopFn s).inbuf = s.inbuf ∧
    (processMapUpdate hopFn s).startSkip = s.startSkip ∧
    (processMapUpdate hopFn s).pitchScale = s.pitchScale ∧
    (processMapUpdate hopFn s).longest = s.longest := by
  unfold processMapUpdate
  split
  · exact ⟨rfl, rfl, rfl, rfl, rfl⟩
  · have h := updateRatioFromMap_preserves hopFn s
    exact ⟨h.1, h.2.1, h.2.2.1, h.2.2.2.1, h.2.2.2.2.1⟩

theorem emitEventStep_target (s : EmitState) (e : EmitEvent) :
    (emitEventStep s e).totalTargetDuration = s.totalTargetDuration := by
  cases e with
  | frame wc =>
    simp only [emitEventStep, emitFrame]
    split <;> rfl
  | retrieve n => rfl

theorem emitInv_step (s : EmitState) (e : EmitEvent)
    (htarget : 0 < s.totalTargetDuration) (hinv : EmitInv s) :
    EmitInv (emitEventStep s e) := by
  obtain ⟨h1, h2⟩ := hinv
  cases e with
  | frame wc =>
    simp only [emitEventStep, emitFrame, truncWriteCount, EmitInv] at *
    split_ifs with ha hb hb <;> simp only [] <;> omega
  | retrieve n =>
    simp only [emitEventStep, EmitInv] at *
    omega

theorem emitInv_run (events : List EmitEvent) :
    ∀ s : EmitState, 0 < s.totalTargetDuration → EmitInv s →
      EmitInv (emitRun events s) := by
  induction events with
  | nil => intro s _ h; exact h
  | cons e rest ih =>
    intro s htarget hinv
    have hstep := emitInv_step s e htarget hinv
    have htarget2 : 0 < (emitEventStep s e).totalTargetDuration := by
      rw [emitEventStep_target]; exact htarget
    exact ih (emitEventStep s e) htarget2 hstep

theorem emitRun_target (events : List EmitEvent) :
    ∀ s : EmitState, (emitRun events s).totalTargetDuration =
      s.totalTargetDuration := by
  induction events with
  | nil => intro s; rfl
  | cons e rest ih =>
    intro s
    calc (emitRun (e :: rest) s).totalTargetDuration
        = (emitRun rest (emitEventStep s e)).totalTargetDuration := rfl
      _ = (emitEventStep s e).totalTargetDuration := ih _
      _ = s.totalTargetDuration := emitEventStep_target s e

theorem clampFormantRatio_eq_ifs (r : ℚ) :
    (if (if r < 1 / 60 then (1 : ℚ) / 60 else r) > 60 then (60 : ℚ)
     else if r < 1 / 60 then 1 / 60 else r) = clampFormantRatio r := by
  unfold clampFormantRatio
  rcases lt_or_le r (1 / 60) with h | h
  · rw [if_pos h]
    rw [if_neg (by norm_num)]
    rw [max_eq_left]
    rw [min_eq_right (by linarith)]
    linarith
  · rw [if_neg (not_lt.mpr h)]
    rcases lt_or_le (60 : ℚ) r with h2 | h2
    · rw [if_pos h2]
      rw [min_eq_left (le_of_lt h2), max_eq_right (by norm_num)]
    · rw [if_neg (not_lt.mpr h2)]
      rw [min_eq_right h2, max_eq_right h]

theorem pendingStep_sets (sampleRate : ℚ) (p : ℤ → ℚ) (fr : PKFrame) (i : ℤ)
    (h : setsAt sampleRate fr i) :
    pendingStep sampleRate p fr i = fr.mag i - fr.prevMag i := by
  obtain ⟨h1, h2, h3, h4⟩ := h
  simp only [pendingStep, adjustPreKick, h1, if_true]
  simp [h2, h3, h4]

theorem pendingStep_clears (sampleRate : ℚ) (p : ℤ → ℚ) (fr : PKFrame) (i : ℤ)
    (h : clearsAt sampleRate fr i) :
    pendingStep sampleRate p fr i = 0 := by
  obtain ⟨h1, h2, h3, h4⟩ := h
  simp only [pendingStep, adjustPreKick, h1, h2]
  simp [h3, h4]

theorem pendingStep_untouched (sampleRate : ℚ) (p : ℤ → ℚ) (fr : PKFrame) (i : ℤ)
    (hs : ¬ setsAt sampleRate fr i) (hc : ¬ clearsAt sampleRate fr i) :
    pendingStep sampleRate p fr i = p i := by
  simp only [pendingStep, adjustPreKick]
  by_cases hp : fr.g.preKickPresent
  · have hcond : ¬ (pkFrom sampleRate fr.g ≤ i ∧ i ≤ pkTo sampleRate fr.g ∧
        fr.prevMag i < fr.mag i) := by
      intro hh
      exact hs ⟨hp, hh.1, hh.2.1, sub_pos.mpr hh.2.2⟩
    simp [hp, hcond]
  · by_cases hk : fr.g.kickPresent
    · have hcond : ¬ (pkFrom sampleRate fr.g ≤ i ∧ i ≤ pkTo sampleRate fr.g) := by
        intro hh
        exact hc ⟨Bool.not_eq_true _ |>.mp hp, hk, hh.1, hh.2⟩
      simp [hp, hk, hcond]
    · simp [hp, hk]

theorem pendingRun_append (sampleRate : ℚ) (xs ys : List PKFrame) (p : ℤ → ℚ) :
    pendingRun sampleRate (xs ++ ys) p =
      pendingRun sampleRate ys (pendingRun sampleRate xs p) := by
  simp [pendingRun, List.foldl_append]

theorem pendingDeltaSum_eq (sampleRate : ℚ) (frames : List PKFrame) :
    ∀ (p : ℤ → ℚ) (i : ℤ),
      pendingDeltaSum sampleRate frames p i = pendingRun sampleRate frames p i - p i := by
  induction frames with
  | nil => intro p i; simp [pendingDeltaSum, pendingRun]
  | cons fr rest ih =>
    intro p i
    simp only [pendingDeltaSum, pendingRun, List.foldl_cons]
    rw [ih (pendingStep sampleRate p fr) i]
    have : pendingRun sampleRate rest (pendingStep sampleRate p fr) i =
        List.foldl (pendingStep sampleRate) (pendingStep sampleRate p fr) rest i := rfl
    rw [← this]
    ring

theorem pendingRun_nonzero_source (sampleRate : ℚ) (i : ℤ) (frames : List PKFrame)
    (h : pendingRun sampleRate frames zeroPending i ≠ 0) :
    ∃ pre fr post, frames = pre ++ fr :: post ∧ setsAt sampleRate fr i ∧
      ∀ g ∈ post, ¬ setsAt sampleRate g i ∧ ¬ clearsAt sampleRate g i := by
  induction frames using List.reverseRecOn with
  | nil => exact absurd rfl h
  | append_singleton fs f ih =>
    rw [pendingRun_append] at h
    by_cases hset : setsAt sampleRate f i
    · exact ⟨fs, f, [], by simp, hset, by simp⟩
    · by_cases hclear : clearsAt sampleRate f i
      · exfalso
        apply h
        simpa [pendingRun] using
          pendingStep_clears sampleRate (pendingRun sampleRate fs zeroPending) f i hclear
      · have huntouched :
            pendingRun sampleRate [f] (pendingRun sampleRate fs zeroPending) i =
              pendingRun sampleRate fs zeroPending i := by
          simpa [pendingRun] using
            pendingStep_untouched sampleRate (pendingRun sampleRate fs zeroPending) f i
              hset hclear
        rw [huntouched] at h
        obtain ⟨pre, fr, post, hsplit, hsets, hpost⟩ := ih h
        refine ⟨pre, fr, post ++ [f], ?_, hsets, ?_⟩
        · rw [hsplit]; simp
        · intro g hg
          rcases List.mem_append.mp hg with hg | hg
          · exact hpost g hg
          · have : g = f := by simpa using hg
            subst this
            exact ⟨hset, hclear⟩

theorem pendingRun_untouched (sampleRate : ℚ) (i : ℤ) (gs : List PKFrame)
    (hgs : ∀ g ∈ gs, ¬ setsAt sampleRate g i ∧ ¬ clearsAt sampleRate g i) :
    ∀ p : ℤ → ℚ, pendingRun sampleRate gs p i = p i := by
  induction gs with
  | nil => intro p; rfl
  | cons g rest ih =>
    intro p
    have hg := hgs g (by simp)
    have hrest : ∀ x ∈ rest, ¬ setsAt sampleRate x i ∧ ¬ clearsAt sampleRate x i :=
      fun x hx => hgs x (by simp [hx])
    calc pendingRun sampleRate (g :: rest) p i
        = pendingRun sampleRate rest (pendingStep sampleRate p g) i := rfl
      _ = pendingStep sampleRate p g i := ih hrest _
      _ = p i := pendingStep_untouched sampleRate p g i hg.1 hg.2

theorem pendingRun_after_set (sampleRate : ℚ) (i : ℤ) (pre : List PKFrame)
    (fr : PKFrame) (post : List PKFrame) (hset : setsAt sampleRate fr i)
    (hpost : ∀ g ∈ post, ¬ setsAt sampleRate g i ∧ ¬ clearsAt sampleRate g i) :
    pendingRun sampleRate (pre ++ fr :: post) zeroPending i =
      fr.mag i - fr.prevMag i := by
  have hsplit : pre ++ fr :: post = (pre ++ [fr]) ++ post := by simp
  calc pendingRun sampleRate (pre ++ fr :: post) zeroPending i
      = pendingRun sampleRate post
          (pendingRun sampleRate (pre ++ [fr]) zeroPending) i := by
        rw [hsplit, pendingRun_append]
    _ = pendingRun sampleRate (pre ++ [fr]) zeroPending i :=
        pendingRun_untouched sampleRate i post hpost _
    _ = pendingStep sampleRate (pendingRun sampleRate pre zeroPending) fr i := by
        rw [pendingRun_append]; rfl
    _ = fr.mag i - fr.prevMag i :=
        pendingStep_sets sampleRate (pendingRun sampleRate pre zeroPending) fr i hset

/-- C2: pendingKick[i] is nonzero only between a pre-kick frame that subtracted
    a positive rise at bin i and the matching kick frame (no later frame sets
    or clears bin i); over a run that ends at the matching kick frame the sum
    of the per-frame changes of pendingKick[i] is zero; the kick frame adds
    pendingKick[i] back into mag[i], and that amount is exactly the positive
    rise which the matching (most recent) pre-kick frame subtracted from mag[i]. -/
theorem pendingKick_law :
    (∀ (sampleRate : ℚ) (i : ℤ) (frames : List PKFrame),
       pendingRun sampleRate frames zeroPending i ≠ 0 →
       ∃ pre fr post, frames = pre ++ fr :: post ∧ setsAt sampleRate fr i ∧
         ∀ g ∈ post, ¬ setsAt sampleRate g i ∧ ¬ clearsAt sampleRate g i) ∧
    (∀ (sampleRate : ℚ) (i : ℤ) (pre : List PKFrame) (k : PKFrame),
       clearsAt sampleRate k i →
       pendingDeltaSum sampleRate (pre ++ [k]) zeroPending i = 0 ∧
       (adjustPreKick sampleRate k (pendingRun sampleRate pre zeroPending)).1 i =
         k.mag i + pendingRun sampleRate pre zeroPending i) ∧
    (∀ (sampleRate : ℚ) (i : ℤ) (pre : List PKFrame) (fr : PKFrame)
       (post : List PKFrame),
       setsAt sampleRate fr i →
       (∀ g ∈ post, ¬ setsAt sampleRate g i ∧ ¬ clearsAt sampleRate g i) →
       pendingRun sampleRate (pre ++ fr :: post) zeroPending i =
         fr.mag i - fr.prevMag i) := by
  refine ⟨pendingRun_nonzero_source, ?_, pendingRun_after_set⟩
  intro sampleRate i pre k hclear
  constructor
  · rw [pendingDeltaSum_eq, pendingRun_append]
    have : pendingRun sampleRate [k] (pendingRun sampleRate pre zeroPending) i = 0 := by
      simpa [pendingRun] using
        pendingStep_clears sampleRate (pendingRun sampleRate pre zeroPending) k i hclear
    rw [this]
    simp [zeroPending]
  · obtain ⟨h1, h2, h3, h4⟩ := hclear
    simp only [adjustPreKick, h1, h2]
    simp [h3, h4]

/-- C2 witness: a concrete pre-kick frame (rise 1 at bin 0) followed by its
    kick frame; the delta sum over the run is zero, the kick adds the pending
    amount back into mag, and the pending amount equals the subtracted rise. -/
theorem pendingKick_law_witness :
    (pendingDeltaSum 1
        ([⟨⟨true, false, 0, 0, [1]⟩, fun _ => 2, fun _ => 1⟩] ++
          [⟨⟨false, true, 0, 0, [1]⟩, fun _ => 5, fun _ => 0⟩]) zeroPending 0 = 0 ∧
      (adjustPreKick 1 ⟨⟨false, true, 0, 0, [1]⟩, fun _ => 5, fun _ => 0⟩
          (pendingRun 1 [⟨⟨true, false, 0, 0, [1]⟩, fun _ => 2, fun _ => 1⟩]
            zeroPending)).1 0 =
        (5 : ℚ) + pendingRun 1 [⟨⟨true, false, 0, 0, [1]⟩, fun _ => 2, fun _ => 1⟩]
          zeroPending 0) ∧
    pendingRun 1 ([] ++ ⟨⟨true, false, 0, 0, [1]⟩, fun _ => 2, fun _ => 1⟩ :: [])
      zeroPending 0 = (2 : ℚ) - 1 := by
  have hclear : clearsAt 1 ⟨⟨false, true, 0, 0, [1]⟩, fun _ => 5, fun _ => 0⟩ 0 := by
    refine ⟨rfl, rfl, ?_, ?_⟩ <;> simp [pkFrom, pkTo, binForFrequency, PKGuidance.bandFftSize]
  have hset : setsAt 1 ⟨⟨true, false, 0, 0, [1]⟩, fun _ => 2, fun _ => 1⟩ 0 := by
    refine ⟨rfl, ?_, ?_, ?_⟩ <;>
      norm_num [pkFrom, pkTo, binForFrequency, PKGuidance.bandFftSize]
  exact ⟨pendingKick_law.2.1 1 0
      [⟨⟨true, false, 0, 0, [1]⟩, fun _ => 2, fun _ => 1⟩]
      ⟨⟨false, true, 0, 0, [1]⟩, fun _ => 5, fun _ => 0⟩ hclear,
    pendingKick_law.2.2 1 0 []
      ⟨⟨true, false, 0, 0, [1]⟩, fun _ => 2, fun _ => 1⟩ [] hset (by simp)⟩

/-- C4: adjustPreKick operates on the lowest active band fftSize
    (fftBands[0].fftSize); when preKick is present it sets pendingKick[i] to
    the rise mag[i] - prevMag[i] and subtracts it from mag[i], for every bin i
    in [round(f0 fftSize / rate), round(f1 fftSize / rate)] with positive rise,
    leaving all other bins unchanged; otherwise when kick is present it adds
    pendingKick[i] into mag[i] and clears pendingKick[i] to zero over the bin
    range derived from preKick.f0/f1. -/
theorem adjustPreKick_spec (sampleRate : ℚ) (fr : PKFrame) (pending : ℤ → ℚ)
    (i : ℤ) :
    (adjustPreKick sampleRate fr pending).1 i =
      (if fr.g.preKickPresent then
         if round (fr.g.preKickF0 * (fr.g.fftBandSizes.headD 0 : ℚ) / sampleRate) ≤ i ∧
            i ≤ round (fr.g.preKickF1 * (fr.g.fftBandSizes.headD 0 : ℚ) / sampleRate) ∧
            fr.mag i - fr.prevMag i > 0 then
           fr.mag i - (fr.mag i - fr.prevMag i)
         else fr.mag i
       else if fr.g.kickPresent then
         if round (fr.g.preKickF0 * (fr.g.fftBandSizes.headD 0 : ℚ) / sampleRate) ≤ i ∧
            i ≤ round (fr.g.preKickF1 * (fr.g.fftBandSizes.headD 0 : ℚ) / sampleRate) then
           fr.mag i + pending i
         else fr.mag i
       else fr.mag i) ∧
    (adjustPreKick sampleRate fr pending).2 i =
      (if fr.g.preKickPresent then
         if round (fr.g.preKickF0 * (fr.g.fftBandSizes.headD 0 : ℚ) / sampleRate) ≤ i ∧
            i ≤ round (fr.g.preKickF1 * (fr.g.fftBandSizes.headD 0 : ℚ) / sampleRate) ∧
            fr.mag i - fr.prevMag i > 0 then
           fr.mag i - fr.prevMag i
         else pending i
       else if fr.g.kickPresent then
         if round (fr.g.preKickF0 * (fr.g.fftBandSizes.headD 0 : ℚ) / sampleRate) ≤ i ∧
            i ≤ round (fr.g.preKickF1 * (fr.g.fftBandSizes.headD 0 : ℚ) / sampleRate) then
           0
         else pending i
       else pending i) := by
  constructor <;>
    · simp only [adjustPreKick, pkFrom, pkTo, binForFrequency, PKGuidance.bandFftSize]
      by_cases hp : fr.g.preKickPresent <;> by_cases hk : fr.g.kickPresent <;>
        simp [hp, hk]

/-- C3 amended: with OptionFormantPreserved set, adjustFormant multiplies, for
    the scale fftSize and each bin i with b0min ≤ i and i strictly below both
    b1max and floor(fftSize * 10000 / sampleRate) (the claimed inclusive upper
    endpoint is in fact exclusive), mag[i] by the ratio
    env(i * sourceFactor) / env(i * targetFactor) clamped to [1/60, 60], with
    targetFactor = formantFftSize / fftSize and sourceFactor = targetFactor
    divided by the effective formant scale (formantScale if nonzero, else
    1 / pitchScale); the bin is skipped when the target envelope value is not
    positive, and every bin outside the range is unchanged. -/
theorem adjustFormant_spec (env : ℚ → ℚ) (sampleRate : ℚ) (formantFftSize : ℕ)
    (formantScale pitchScale : ℚ) (b : FormantBand) (fftSize : ℕ)
    (mag : ℤ → ℚ) (i : ℤ) :
    adjustFormant env sampleRate formantFftSize formantScale pitchScale [b]
        fftSize mag i =
      (if b.fftSize = fftSize ∧ b.b0min ≤ i ∧ i < b.b1max ∧
          i < ⌊(fftSize : ℚ) * 10000 / sampleRate⌋ ∧
          env ((i : ℚ) * ((formantFftSize : ℚ) / (fftSize : ℚ))) > 0 then
        mag i *
          clampFormantRatio
            (env ((i : ℚ) * ((formantFftSize : ℚ) / (fftSize : ℚ) /
                formantScaleEff formantScale pitchScale)) /
             env ((i : ℚ) * ((formantFftSize : ℚ) / (fftSize : ℚ))))
      else mag i) := by
  simp only [adjustFormant, formantScaleEff, clampFormantRatio_eq_ifs,
    List.foldl_cons, List.foldl_nil]
  by_cases h1 : b.fftSize = fftSize <;>
    by_cases h2 : b.b0min ≤ i <;>
      by_cases h3 : i < b.b1max <;>
        by_cases h4 : i < ⌊(fftSize : ℚ) * 10000 / sampleRate⌋ <;>
          by_cases h5 : env ((i : ℚ) * ((formantFftSize : ℚ) / (fftSize : ℚ))) > 0 <;>
            simp [h1, h2, h3, h4, h5]

/-- C3 counterexample: with sampleRate 10000, formant fft size 8, formantScale
    2, the single band (fftSize 4, b0min 0, b1max 2) and unit magnitudes, the
    bin i = 2 = min(b1max, highBin) of the claimed inclusive range is left
    unchanged by the code (the loop condition is i < b1max, exclusive), while
    the claimed inclusive range would multiply it by 3/5. -/
theorem adjustFormant_counterexample :
    adjustFormant envWitness 10000 8 2 1 [⟨4, 0, 2⟩] 4 magOne 2 = 1 ∧
    adjustFormantClaimed envWitness 10000 8 2 1 [⟨4, 0, 2⟩] 4 magOne 2 = 3 / 5 ∧
    adjustFormant envWitness 10000 8 2 1 [⟨4, 0, 2⟩] 4 magOne 2 ≠
      adjustFormantClaimed envWitness 10000 8 2 1 [⟨4, 0, 2⟩] 4 magOne 2 := by
  refine ⟨?_, ?_, ?_⟩ <;>
    norm_num [adjustFormant, adjustFormantClaimed, envWitness, magOne]

/-- C5 amended: in offline mode, provided totalTargetDuration is positive,
    totalOutputDuration never exceeds totalTargetDuration at any point of the
    run (after any sequence of frame and retrieve events from the initial
    state); and whenever the target is positive and writing the full frame
    would pass it, the written count is truncated to exactly
    totalTargetDuration - totalOutputDuration. -/
theorem consume_output_bounded :
    (∀ (target skip : ℕ) (events : List EmitEvent), 0 < target →
       (emitRun events (emitInit target skip)).totalOutputDuration ≤ target) ∧
    (∀ (s : EmitState) (writeCount : ℕ),
       0 < s.totalTargetDuration →
       s.totalTargetDuration < s.totalOutputDuration + writeCount →
       truncWriteCount s writeCount =
         s.totalTargetDuration - s.totalOutputDuration) := by
  constructor
  · intro target skip events htarget
    have hinit : EmitInv (emitInit target skip) := by
      constructor <;> simp [emitInit]
    have hrun := emitInv_run events (emitInit target skip) (by simpa [emitInit]) hinit
    have h2 := hrun.2
    rw [emitRun_target] at h2
    simpa [emitInit] using h2
  · intro s writeCount h1 h2
    simp [truncWriteCount, h1, h2]

/-- C5 witness: a concrete run with positive target stays within the target,
    and a concrete overshooting frame is truncated to target minus output. -/
theorem consume_output_bounded_witness :
    ((0 < 100 ∧
        (emitRun [EmitEvent.frame 256, EmitEvent.retrieve 10,
          EmitEvent.frame 256] (emitInit 100 3)).totalOutputDuration ≤ 100) ∧
      (0 < 10 ∧ 10 < 7 + 6 ∧
        truncWriteCount ⟨7, 10, 0, 4⟩ 6 = 10 - 7)) := by
  refine ⟨⟨by norm_num, consume_output_bounded.1 100 3 _ (by norm_num)⟩,
    ⟨by norm_num, by norm_num,
      consume_output_bounded.2 ⟨7, 10, 0, 4⟩ 6 (by norm_num) (by norm_num)⟩⟩

/-- C5 counterexample: in offline mode with totalTargetDuration = 0 (reachable
    when neither study nor setExpectedInputDuration preceded processing), the
    truncation branch is disabled and the very first emitted frame takes
    totalOutputDuration (256) past totalTargetDuration (0), so the claimed
    unconditional invariant is false. -/
theorem consume_output_bounded_counterexample :
    (emitRun [EmitEvent.frame 256] (emitInit 0 0)).totalTargetDuration = 0 ∧
    (emitRun [EmitEvent.frame 256] (emitInit 0 0)).totalOutputDuration = 256 := by
  constructor <;> rfl

/-- C6: a process call in Finished mode returns immediately with the warning
    flag set and leaves the entire state, in particular the input rings,
    unchanged; a process call with final = true from any non-Finished mode
    leaves the mode Finished (for any consume that does not change the mode,
    as the source consume does not); available returns -1 exactly when the
    mode is Finished and the output ring is empty, and otherwise returns the
    output ring read space, which is non-negative. -/
theorem process_finished_spec :
    (∀ (hopFn : ℚ → ℚ → ℕ) (consumeFn : ProcState → ProcState)
       (realTime : Bool) (input : List ℚ) (final : Bool) (s : ProcState),
       s.mode = Mode.finished →
       process hopFn consumeFn realTime input final s = (s, true)) ∧
    (∀ (hopFn : ℚ → ℚ → ℕ) (consumeFn : ProcState → ProcState)
       (realTime : Bool) (input : List ℚ) (s : ProcState),
       s.mode ≠ Mode.finished →
       (∀ t : ProcState, (consumeFn t).mode = t.mode) →
       (process hopFn consumeFn realTime input true s).1.mode = Mode.finished) ∧
    (∀ s : ProcState, available s = -1 ↔
       (s.mode = Mode.finished ∧ s.outReadSpace = 0)) ∧
    (∀ s : ProcState, ¬ (s.mode = Mode.finished ∧ s.outReadSpace = 0) →
       available s = (s.outReadSpace : ℤ) ∧ 0 ≤ available s) := by
  refine ⟨?_, ?_, ?_, ?_⟩
  · intro hopFn consumeFn realTime input final s h
    unfold process
    rw [if_pos h]
  · intro hopFn consumeFn realTime input s h hcons
    unfold process
    rw [if_neg h]
    simp only []
    rw [hcons]
    rfl
  · intro s
    unfold available
    by_cases h : ((s.outReadSpace : ℤ) = 0 ∧ s.mode = Mode.finished)
    · rw [if_pos h]
      constructor
      · intro _
        exact ⟨h.2, by exact_mod_cast h.1⟩
      · intro _
        rfl
    · rw [if_neg h]
      constructor
      · intro hav
        exfalso
        have hnn : (0 : ℤ) ≤ (s.outReadSpace : ℤ) := by omega
        omega
      · intro hc
        exact absurd ⟨by exact_mod_cast hc.2, hc.1⟩ h
  · intro s hn
    unfold available
    have h : ¬ ((s.outReadSpace : ℤ) = 0 ∧ s.mode = Mode.finished) := by
      intro hh
      exact hn ⟨hh.2, by exact_mod_cast hh.1⟩
    rw [if_neg h]
    exact ⟨rfl, by omega⟩

/-- C6 witness: a concrete Finished state absorbs a process call, a final
    process call on the fresh state ends Finished, and available behaves as
    characterised on drained-Finished and non-empty states. -/
theorem process_finished_witness :
    (process hopFnOne id false [] false { baseState with mode := Mode.finished } =
      ({ baseState with mode := Mode.finished }, true)) ∧
    ((process hopFnOne id false [] true baseState).1.mode = Mode.finished) ∧
    (available { baseState with mode := Mode.finished } = -1 ↔
      ({ baseState with mode := Mode.finished }.mode = Mode.finished ∧
        { baseState with mode := Mode.finished }.outReadSpace = 0)) ∧
    (available { baseState with outReadSpace := 3 } =
        (({ baseState with outReadSpace := 3 }).outReadSpace : ℤ) ∧
      0 ≤ available { baseState with outReadSpace := 3 }) := by
  refine ⟨process_finished_spec.1 hopFnOne id false [] false _ rfl,
    process_finished_spec.2.1 hopFnOne id false [] baseState (by decide)
      (fun t => rfl),
    process_finished_spec.2.2.1 _,
    process_finished_spec.2.2.2 _ (by decide)⟩

/-- C7: on a process call in offline mode while the mode is still JustCreated
    or Studying (that is, the first process call), each input ring is
    prefilled with exactly longest/2 zeros before the incoming samples are
    written, and startSkip is set to round((longest/2) / pitchScale); then
    each Emit step with positive startSkip drops min(startSkip, readSpace)
    samples from the head of every output ring and decreases startSkip by the
    same amount, and an Emit step with startSkip = 0 drops nothing. -/
theorem process_offline_prefill :
    (∀ (hopFn : ℚ → ℚ → ℕ) (input : List ℚ) (final : Bool) (s : ProcState),
       s.mode = Mode.justCreated ∨ s.mode = Mode.studying →
       (processPrepared hopFn false input final s).inbuf =
         s.inbuf ++ List.replicate (s.longest / 2) 0 ++ input ∧
       (processPrepared hopFn false input final s).startSkip =
         (round (((s.longest / 2 : ℕ) : ℚ) / s.pitchScale)).toNat) ∧
    (∀ (s : EmitState) (writeCount : ℕ), 0 < s.startSkip →
       (emitFrame s writeCount).outReadSpace =
         (s.outReadSpace + truncWriteCount s writeCount) -
           min s.startSkip (s.outReadSpace + truncWriteCount s writeCount) ∧
       (emitFrame s writeCount).startSkip =
         s.startSkip -
           min s.startSkip (s.outReadSpace + truncWriteCount s writeCount)) ∧
    (∀ (s : EmitState) (writeCount : ℕ), s.startSkip = 0 →
       (emitFrame s writeCount).outReadSpace =
         s.outReadSpace + truncWriteCount s writeCount ∧
       (emitFrame s writeCount).startSkip = 0) := by
  refine ⟨?_, ?_, ?_⟩
  · intro hopFn input final s hmode
    have ht := processTargetUpdate_preserves s
    have hm := processMapUpdate_preserves hopFn (processTargetUpdate s)
    have hmode2 : (processMapUpdate hopFn (processTargetUpdate s)).mode =
        Mode.justCreated ∨
        (processMapUpdate hopFn (processTargetUpdate s)).mode = Mode.studying := by
      rw [hm.1, ht.1]; exact hmode
    unfold processPrepared processPrefill
    rw [if_neg Bool.false_ne_true, if_pos hmode2]
    by_cases hc : (processMapUpdate hopFn (processTargetUpdate s)).pitchScale ≠ 1 ∧
        (processMapUpdate hopFn (processTargetUpdate s)).hasResampler = false
    · rw [if_pos hc]
      refine ⟨?_, ?_⟩ <;>
        simp [hm.2.1, hm.2.2.1, hm.2.2.2.1, hm.2.2.2.2, ht.2.1, ht.2.2.1,
          ht.2.2.2.1, ht.2.2.2.2.1]
    · rw [if_neg hc]
      refine ⟨?_, ?_⟩ <;>
        simp [hm.2.1, hm.2.2.1, hm.2.2.2.1, hm.2.2.2.2, ht.2.1, ht.2.2.1,
          ht.2.2.2.1, ht.2.2.2.2.1]
  · intro s writeCount h
    unfold emitFrame
    rw [if_pos h]
    exact ⟨rfl, rfl⟩
  · intro s writeCount h
    unfold emitFrame
    rw [if_neg (by omega)]
    exact ⟨rfl, h⟩

/-- C7 witness: the fresh offline state is prefilled with longest/2 = 2 zeros
    ahead of the incoming sample and startSkip is set from the pitch scale;
    a concrete Emit step with positive startSkip drops the minimum. -/
theorem process_offline_prefill_witness :
    ((processPrepared hopFnOne false [7] true baseState).inbuf =
        baseState.inbuf ++ List.replicate (baseState.longest / 2) 0 ++ [7] ∧
      (processPrepared hopFnOne false [7] true baseState).startSkip =
        (round (((baseState.longest / 2 : ℕ) : ℚ) / baseState.pitchScale)).toNat) ∧
    (0 < (2 : ℕ) ∧
      (emitFrame ⟨0, 0, 2, 5⟩ 3).outReadSpace =
        ((5 : ℕ) + truncWriteCount ⟨0, 0, 2, 5⟩ 3) -
          min 2 ((5 : ℕ) + truncWriteCount ⟨0, 0, 2, 5⟩ 3) ∧
      (emitFrame ⟨0, 0, 2, 5⟩ 3).startSkip =
        (2 : ℕ) - min 2 ((5 : ℕ) + truncWriteCount ⟨0, 0, 2, 5⟩ 3)) := by
  refine ⟨process_offline_prefill.1 hopFnOne [7] true baseState (Or.inl rfl), ?_⟩
  have h := process_offline_prefill.2.1 ⟨0, 0, 2, 5⟩ 3 (by norm_num)
  exact ⟨by norm_num, h.1, h.2⟩

/-- C8 amended: when the key-frame map is non-empty, its first entry has a
    nonzero input index, and no input has been consumed yet, the ratio update
    sets timeRatio to firstOutput / firstInput, recomputes the hop from the
    new ratio, and sets lastKeyFrameSurpassed to 0. -/
theorem updateRatioFromMap_initial (hopFn : ℚ → ℚ → ℕ) (s : ProcState)
    (k v : ℕ) (rest : List (ℕ × ℕ))
    (hmap : s.keyFrameMap = (k, v) :: rest)
    (hconsumed : s.consumedInputDuration = 0) (hk : k ≠ 0) :
    updateRatioFromMap hopFn s =
      { s with timeRatio := (v : ℚ) / (k : ℚ)
               inhop := hopFn ((v : ℚ) / (k : ℚ)) s.pitchScale
               lastKeyFrameSurpassed := 0 } := by
  simp [updateRatioFromMap, hmap, hconsumed, hk]

/-- C8 witness: with first map entry (50, 100) and nothing consumed, the ratio
    becomes 100/50, the hop is recomputed and lastKeyFrameSurpassed is 0. -/
theorem updateRatioFromMap_initial_witness :
    updateRatioFromMap hopFnOne { baseState with keyFrameMap := [(50, 100)] } =
      { { baseState with keyFrameMap := [(50, 100)] } with
          timeRatio := ((100 : ℕ) : ℚ) / ((50 : ℕ) : ℚ)
          inhop := hopFnOne (((100 : ℕ) : ℚ) / ((50 : ℕ) : ℚ))
            ({ baseState with keyFrameMap := [(50, 100)] }).pitchScale
          lastKeyFrameSurpassed := 0 } :=
  updateRatioFromMap_initial hopFnOne
    { baseState with keyFrameMap := [(50, 100)] } 50 100 [] rfl rfl (by decide)

/-- C8 counterexample: with first map entry (0, 100) and nothing consumed, the
    source divides 100.0 by 0.0; the model records the zero denominator in
    divByZero (in C++ the quotient is an IEEE infinity, not a real time
    ratio), and the rational-convention quotient 100/0 = 0 is not a positive
    ratio, so the claimed behaviour for a first entry with input index 0 does
    not hold. -/
theorem updateRatioFromMap_zero_counterexample :
    (updateRatioFromMap hopFnOne
        { baseState with keyFrameMap := [(0, 100)] }).divByZero = true ∧
    (updateRatioFromMap hopFnOne
        { baseState with keyFrameMap := [(0, 100)] }).timeRatio = 0 := by
  constructor
  · decide
  · simp [updateRatioFromMap, baseState]

/-- C9: if haveReadahead holds and the input hop equals the previous frame's
    input hop, the previous readahead's magnitudes and phases become the
    classification scale's current mag/phase (the magnitudes normalised by
    1/classify) and exactly one classification-scale forward FFT runs (the
    new readahead only); if haveReadahead is false or the hop changed, the
    current classification frame is re-windowed from the frame centre and
    transformed in addition to the readahead (two forward FFTs), so the
    readahead is never reused across an inhop change; in both cases the new
    readahead is computed from the centre shifted by inhop. -/
theorem analyseClassify_readahead_reuse (ops : AnalysisOps)
    (classify longest b0min b1max inhop prevInhop : ℤ) (buf : ℤ → ℚ)
    (st : ClassifyState) :
    (st.haveReadahead = true ∧ inhop = prevInhop →
      (analyseClassify ops classify longest b0min b1max inhop prevInhop
          buf st).2 = 1 ∧
      ∀ i : ℤ, 0 ≤ i → i < classify / 2 + 1 →
        (analyseClassify ops classify longest b0min b1max inhop prevInhop
            buf st).1.classifyMag i =
          st.readaheadMag i * (1 / (classify : ℚ)) ∧
        (analyseClassify ops classify longest b0min b1max inhop prevInhop
            buf st).1.classifyPhase i = st.readaheadPhase i) ∧
    (st.haveReadahead = false ∨ inhop ≠ prevInhop →
      (analyseClassify ops classify longest b0min b1max inhop prevInhop
          buf st).2 = 2 ∧
      ∀ i : ℤ, 0 ≤ i → i < classify / 2 + 1 →
        (analyseClassify ops classify longest b0min b1max inhop prevInhop
            buf st).1.classifyMag i =
          ops.polarMag
              (ops.fftReal (ops.fftshift (ops.acut ((longest - classify) / 2) buf)))
              (ops.fftImag (ops.fftshift (ops.acut ((longest - classify) / 2) buf)))
              i * (1 / (classify : ℚ))) ∧
    (∀ i : ℤ,
      (analyseClassify ops classify longest b0min b1max inhop prevInhop
          buf st).1.readaheadMag i =
        updateRange st.readaheadMag
          (ops.polarMag
            (ops.fftReal (ops.fftshift
              (ops.acut ((longest - classify) / 2 + inhop) buf)))
            (ops.fftImag (ops.fftshift
              (ops.acut ((longest - classify) / 2 + inhop) buf))))
          0 (classify / 2 + 1) i ∧
      (analyseClassify ops classify longest b0min b1max inhop prevInhop
          buf st).1.readaheadPhase i =
        updateRange st.readaheadPhase
          (ops.polarPhase
            (ops.fftReal (ops.fftshift
              (ops.acut ((longest - classify) / 2 + inhop) buf)))
            (ops.fftImag (ops.fftshift
              (ops.acut ((longest - classify) / 2 + inhop) buf))))
          b0min (b1max - b0min + 1) i) := by
  refine ⟨?_, ?_, ?_⟩
  · rintro ⟨h1, h2⟩
    have hv : (st.haveReadahead && decide (inhop = prevInhop)) = true := by
      simp [h1, h2]
    refine ⟨by simp [analyseClassify, hv], ?_⟩
    intro i hi1 hi2
    constructor <;>
      simp [analyseClassify, hv, vscaleRange, updateRange, hi1, hi2]
  · intro h
    have hv : (st.haveReadahead && decide (inhop = prevInhop)) = false := by
      rcases h with h | h <;> simp [h]
    refine ⟨by simp [analyseClassify, hv], ?_⟩
    intro i hi1 hi2
    simp [analyseClassify, hv, convertToPolar, vscaleRange, updateRange, hi1, hi2]
  · intro i
    by_cases hv : (st.haveReadahead && decide (inhop = prevInhop)) = true
    · constructor <;> simp [analyseClassify, hv, convertToPolar]
    · rw [Bool.not_eq_true] at hv
      constructor <;> simp [analyseClassify, hv, convertToPolar]

/-- C9 witness: with equal hops and a valid readahead, one forward FFT runs
    and the previous readahead magnitude (normalised) becomes the current
    classification magnitude; with a changed hop, two forward FFTs run. -/
theorem analyseClassify_readahead_reuse_witness :
    (analyseClassify opsZero 2 4 0 1 5 5 (fun _ => 0) stZero).2 = 1 ∧
    (analyseClassify opsZero 2 4 0 1 5 5 (fun _ => 0) stZero).1.classifyMag 0 =
      stZero.readaheadMag 0 * (1 / (2 : ℚ)) ∧
    (analyseClassify opsZero 2 4 0 1 7 5 (fun _ => 0) stZero).2 = 2 := by
  have h1 := (analyseClassify_readahead_reuse opsZero 2 4 0 1 5 5
    (fun _ => 0) stZero).1 ⟨rfl, rfl⟩
  have h2 := (analyseClassify_readahead_reuse opsZero 2 4 0 1 7 5
    (fun _ => 0) stZero).2.1 (Or.inr (by norm_num))
  exact ⟨h1.1, (h1.2 0 (by norm_num) (by norm_num)).1, h2.1⟩

theorem retrieveGo_count (avails : List ℕ) :
    ∀ (c got : ℕ) (warns : List ℕ),
      (retrieveGo c avails got warns).1 = List.foldl min got avails := by
  induction avails with
  | nil => intro c got warns; rfl
  | cons a rest ih =>
    intro c got warns
    show (retrieveGo (c + 1) rest _ _).1 = _
    rw [ih]
    have hgot : (if ringRead a got < got then min got (max (ringRead a got) 0)
        else got) = min got a := by
      simp only [ringRead]
      rcases le_or_lt got a with h | h
      · rw [if_neg (by omega)]; omega
      · rw [if_pos (by omega)]; omega
    rw [hgot]
    rfl

theorem foldl_min_le_init (l : List ℕ) :
    ∀ got : ℕ, List.foldl min got l ≤ got := by
  induction l with
  | nil => intro got; exact le_refl got
  | cons a rest ih =>
    intro got
    calc List.foldl min got (a :: rest) = List.foldl min (min got a) rest := rfl
      _ ≤ min got a := ih _
      _ ≤ got := min_le_left _ _

theorem foldl_min_le_readCounts (avails : List ℕ) :
    ∀ (got r : ℕ), r ∈ readCounts avails got →
      List.foldl min got avails ≤ r := by
  induction avails with
  | nil => intro got r hr; simp [readCounts] at hr
  | cons a rest ih =>
    intro got r hr
    simp only [readCounts, List.mem_cons] at hr
    rcases hr with hr | hr
    · subst hr
      exact foldl_min_le_init rest (min got a)
    · exact ih (min got a) r hr

theorem foldl_min_mem_readCounts (avails : List ℕ) :
    ∀ got : ℕ, avails ≠ [] →
      List.foldl min got avails ∈ readCounts avails got := by
  induction avails with
  | nil => intro got h; exact absurd rfl h
  | cons a rest ih =>
    intro got _
    cases rest with
    | nil => simp [readCounts]
    | cons b tail =>
      exact List.mem_cons_of_mem _ (ih (min got a) (by simp))

theorem retrieveGo_warns_acc (avails : List ℕ) :
    ∀ (c got : ℕ) (warns : List ℕ),
      (retrieveGo c avails got warns).2 =
        warns ++ (retrieveGo c avails got []).2 := by
  induction avails with
  | nil => intro c got warns; simp [retrieveGo]
  | cons a rest ih =>
    intro c got warns
    show (retrieveGo (c + 1) rest _ _).2 = warns ++ (retrieveGo (c + 1) rest _ _).2
    rw [ih, ih (c + 1) _ (if ringRead a got < got ∧ 0 < c then [] ++ [c] else [])]
    by_cases h : ringRead a got < got ∧ 0 < c <;> simp [h]

theorem retrieveGo_warns_pos (avails : List ℕ) :
    ∀ (c got x : ℕ), x ∈ (retrieveGo c avails got []).2 → c ≤ x ∧ 0 < x := by
  induction avails with
  | nil => intro c got x hx; simp [retrieveGo] at hx
  | cons a rest ih =>
    intro c got x hx
    rw [show (retrieveGo c (a :: rest) got []).2 = (retrieveGo (c + 1) rest
        (if ringRead a got < got then min got (max (ringRead a got) 0) else got)
        (if ringRead a got < got ∧ 0 < c then [] ++ [c] else [])).2 from rfl,
      retrieveGo_warns_acc] at hx
    rcases List.mem_append.mp hx with hx | hx
    · by_cases h : ringRead a got < got ∧ 0 < c
      · rw [if_pos h] at hx
        have : x = c := by simpa using hx
        subst this
        exact ⟨le_refl x, h.2⟩
      · rw [if_neg h] at hx
        simp at hx
    · have := ih (c + 1) _ x hx
      omega

theorem retrieveGo_warns_complete (avails : List ℕ) :
    ∀ (c got j a : ℕ) (warns : List ℕ), avails[j]? = some a →
      0 < c + j → a < List.foldl min got (avails.take j) →
      (c + j) ∈ (retrieveGo c avails got warns).2 := by
  induction avails with
  | nil => intro c got j a warns hj _ _; simp at hj
  | cons a0 rest ih =>
    intro c got j a warns hj hcj ha
    cases j with
    | zero =>
      simp only [List.getElem?_cons_zero, Option.some.injEq] at hj
      subst hj
      simp only [List.take_zero, List.foldl_nil] at ha
      have hcond : ringRead a0 got < got ∧ 0 < c := by
        constructor
        · simp only [ringRead]; omega
        · omega
      show (c + 0) ∈ (retrieveGo (c + 1) rest _ _).2
      rw [retrieveGo_warns_acc, if_pos hcond]
      simp
    | succ j2 =>
      simp only [List.getElem?_cons_succ] at hj
      have ha2 : a < List.foldl min (min got a0) (rest.take j2) := by
        simpa [List.take_succ_cons] using ha
      have hgot : (if ringRead a0 got < got then min got (max (ringRead a0 got) 0)
          else got) = min got a0 := by
        simp only [ringRead]
        rcases le_or_lt got a0 with h | h
        · rw [if_neg (by omega)]; omega
        · rw [if_pos (by omega)]; omega
      have := ih (c + 1) (min got a0) j2 a
        (if ringRead a0 got < got ∧ 0 < c then warns ++ [c] else warns) hj
        (by omega) ha2
      show (c + (j2 + 1)) ∈ (retrieveGo (c + 1) rest _ _).2
      rw [hgot]
      have harith : c + (j2 + 1) = (c + 1) + j2 := by omega
      rw [harith]
      exact this

/-- C10: retrieve returns the minimum over all channels of the number of
    samples actually read from that channel's output ring (each channel is
    asked for the running count, so the result is the fold of min over the
    read spaces), never exceeding the requested count n and clamped below at
    0 (it is a natural number); a channel reading fewer samples than the
    running count reduces the returned count, but the channel-imbalance
    warning is reported only for channels after the first. -/
theorem retrieve_spec :
    (∀ (avails : List ℕ) (n : ℕ),
       (retrieve avails n).1 = List.foldl min n avails) ∧
    (∀ (avails : List ℕ) (n : ℕ), (retrieve avails n).1 ≤ n) ∧
    (∀ (avails : List ℕ) (n r : ℕ), r ∈ readCounts avails n →
       (retrieve avails n).1 ≤ r) ∧
    (∀ (avails : List ℕ) (n : ℕ), avails ≠ [] →
       (retrieve avails n).1 ∈ readCounts avails n) ∧
    (∀ (avails : List ℕ) (n x : ℕ), x ∈ (retrieve avails n).2 → 0 < x) ∧
    (∀ (avails : List ℕ) (n j a : ℕ), avails[j]? = some a → 0 < j →
       a < List.foldl min n (avails.take j) → j ∈ (retrieve avails n).2) := by
  refine ⟨?_, ?_, ?_, ?_, ?_, ?_⟩
  · intro avails n
    exact retrieveGo_count avails 0 n []
  · intro avails n
    have hc : (retrieve avails n).1 = List.foldl min n avails :=
      retrieveGo_count avails 0 n []
    rw [hc]
    exact foldl_min_le_init avails n
  · intro avails n r hr
    have hc : (retrieve avails n).1 = List.foldl min n avails :=
      retrieveGo_count avails 0 n []
    rw [hc]
    exact foldl_min_le_readCounts avails n r hr
  · intro avails n h
    have hc : (retrieve avails n).1 = List.foldl min n avails :=
      retrieveGo_count avails 0 n []
    rw [hc]
    exact foldl_min_mem_readCounts avails n h
  · intro avails n x hx
    exact (retrieveGo_warns_pos avails 0 n x hx).2
  · intro avails n j a hj hjpos ha
    have := retrieveGo_warns_complete avails 0 n j a [] hj (by omega) ha
    simpa using this

/-- C10 witness: with read spaces [5, 3, 7] and request 4, retrieve returns
    3 = min over the actually-read counts [4, 3, 3], channel 1 is warned, and
    channel 0 is never warned. -/
theorem retrieve_spec_witness :
    (retrieve [5, 3, 7] 4).1 = List.foldl min 4 [5, 3, 7] ∧
    (retrieve [5, 3, 7] 4).1 ≤ 4 ∧
    (retrieve [5, 3, 7] 4).1 ∈ readCounts [5, 3, 7] 4 ∧
    (1 : ℕ) ∈ (retrieve [5, 3, 7] 4).2 ∧
    ((0 : ℕ) ∈ (retrieve [5, 3, 7] 4).2 → 0 < (0 : ℕ)) := by
  refine ⟨retrieve_spec.1 [5, 3, 7] 4, retrieve_spec.2.1 [5, 3, 7] 4,
    retrieve_spec.2.2.2.1 [5, 3, 7] 4 (by simp),
    retrieve_spec.2.2.2.2.2 [5, 3, 7] 4 1 3 (by simp) (by norm_num) (by simp),
    retrieve_spec.2.2.2.2.1 [5, 3, 7] 4 0⟩

end R3
